import Mathlib

/-!
Verification of the ThinkStats empirical discrete-distribution core.

The repository's notebooks define `bias`, `unbias`, `smallest`, `largest` and
`split_series` directly; those are translated here from the notebook source.
The `Hist`/`Pmf` objects they operate on come from the external
`empiricaldist` library, which is not part of this repository's source, so
their operations are modelled from the spec: a distribution is a mapping from
quantities (rationals) to values (integer counts for a Hist, rational masses
for a Pmf), with quantities as unique keys kept in ascending order.  The
mapping is represented as a list of (quantity, value) pairs; real-number
masses are modelled as rationals, so "up to floating-point tolerance" becomes
exact equality.
-/

namespace ThinkStats

/-- Keys (quantities) of a distribution, in storage order. -/
def keys {α : Type} (l : List (ℚ × α)) : List ℚ := l.map Prod.fst

/-- Modelled from the spec: quantities are unique keys in ascending natural
value order, so the key list is strictly sorted. -/
def sortedKeys {α : Type} (l : List (ℚ × α)) : Prop :=
  (keys l).Sorted (· < ·)

/-- Modelled from the spec: `lookup(q)` returns the value stored for quantity
`q`, or zero when `q` is absent; it is a total function and never fails. -/
def lookup {α : Type} [Zero α] (q : ℚ) : List (ℚ × α) → α
  | [] => 0
  | e :: t => if e.1 = q then e.2 else lookup q t

namespace Hist

/-- Modelled from the spec: `total()` is the sum of all counts. -/
def total (h : List (ℚ × ℕ)) : ℕ := (h.map Prod.snd).sum

/-- Modelled from the spec: `from_sequence(values)` tallies occurrences, one
entry per distinct quantity of the input, in ascending order, each holding the
number of times that quantity appears in the sequence. -/
def from_seq (s : List ℚ) : List (ℚ × ℕ) :=
  (List.insertionSort (· ≤ ·) s.dedup).map fun q => (q, s.count q)

/-- Translated from `smallest` in the source (chap02): `hist[:n]`, the first
`n` rows of the ascending-indexed Hist. -/
def smallest (h : List (ℚ × ℕ)) (n : ℕ) : List (ℚ × ℕ) := h.take n

/-- Translated from `largest` in the source (chap02): `hist[-n:]`.  Python's
negative-index slice takes the whole series when `n = 0`, and otherwise the
last `n` rows, kept in their original ascending order. -/
def largest (h : List (ℚ × ℕ)) (n : ℕ) : List (ℚ × ℕ) :=
  if n = 0 then h else h.drop (h.length - n)

end Hist

/-- Modelled from the spec: `mode()` returns the quantity with the maximum
count (Hist) or mass (Pmf); on ties the smallest quantity among the tied ones
wins.  With entries in ascending quantity order this is the first entry whose
value no later entry strictly exceeds, computed by a left fold keeping the
current best and replacing it only on a strictly larger value. -/
def mode {α : Type} [LinearOrder α] : List (ℚ × α) → Option ℚ
  | [] => none
  | e :: t => some ((t.foldl (fun b x => if b.2 < x.2 then x else b) e).1)

namespace Pmf

/-- Modelled from the spec: the sum of all probability masses. -/
def total (p : List (ℚ × ℚ)) : ℚ := (p.map Prod.snd).sum

/-- Modelled from the spec: `normalize()` divides every mass by the current
sum of masses and returns that pre-normalization sum; when the sum is exactly
zero the call is the signaled zero-sum condition, modelled with the spec's
no-op-returning-0 policy. -/
def normalize (p : List (ℚ × ℚ)) : ℚ × List (ℚ × ℚ) :=
  if total p = 0 then (0, p)
  else (total p, p.map fun e => (e.1, e.2 / total p))

/-- Modelled from the spec: `mean()` is the sum of mass times quantity over
all entries. -/
def mean (p : List (ℚ × ℚ)) : ℚ := (p.map fun e => e.2 * e.1).sum

/-- Modelled from the spec: a Pmf derived from a Hist divides every count by
the Hist's total. -/
def ofHist (h : List (ℚ × ℕ)) : List (ℚ × ℚ) :=
  h.map fun e => (e.1, (e.2 : ℚ) / (Hist.total h : ℚ))

/-- Modelled from the spec: `Pmf.from_sequence(values)` builds a Hist and then
divides every count by the total. -/
def from_seq (s : List ℚ) : List (ℚ × ℚ) := ofHist (Hist.from_seq s)

end Pmf

/-- Translated from `bias` in the source: `ps = pmf.ps * pmf.qs`, build a new
Pmf over the same quantities from those masses, and normalize it. -/
def bias (p : List (ℚ × ℚ)) : List (ℚ × ℚ) :=
  (Pmf.normalize (p.map fun e => (e.1, e.2 * e.1))).2

/-- Translated from `unbias` in the source: `ps = pmf.ps / pmf.qs`, build a
new Pmf over the same quantities from those masses, and normalize it. -/
def unbias (p : List (ℚ × ℚ)) : List (ℚ × ℚ) :=
  (Pmf.normalize (p.map fun e => (e.1, e.2 / e.1))).2

/-- Translated from `split_series` in the source: `series.iloc[:-n]` and
`series.iloc[-n:]`.  Python's negative slice makes the training part empty and
the test part the whole series when `n = 0`; for `n ≥ 1` it splits off the
last `n` elements. -/
def split_series {α : Type} (series : List α) (n : ℕ) : List α × List α :=
  if n = 0 then ([], series)
  else (series.take (series.length - n), series.drop (series.length - n))

/-- A `Pmf` object as held by the Python runtime: its name label and its
entries. -/
structure PmfObj where
  name : String
  entries : List (ℚ × ℚ)
deriving DecidableEq

/-- Constructing `Pmf(ps, qs, name)` allocates a fresh object in the runtime's
object store and returns its reference (its index). -/
def alloc (h : List PmfObj) (o : PmfObj) : List PmfObj × ℕ := (h ++ [o], h.length)

/-- Calling `normalize()` on the object at reference `r` mutates that object
in place and returns the pre-normalization sum. -/
def normalizeAt (h : List PmfObj) (r : ℕ) : List PmfObj × ℚ :=
  match h[r]? with
  | none => (h, 0)
  | some o =>
    let res := Pmf.normalize o.entries
    (h.set r { o with entries := res.2 }, res.1)

/-- Translated from `bias` in the source, with the Python object store made
explicit: read `pmf.ps` and `pmf.qs` from the argument object, allocate a new
`Pmf` object from the reweighted masses, call `normalize()` on the new object
(mutating it in place), and return a reference to it. -/
def biasM (h : List PmfObj) (r : ℕ) (nm : String) : List PmfObj × Option ℕ :=
  match h[r]? with
  | none => (h, none)
  | some o =>
    let ps := o.entries.map fun e => (e.1, e.2 * e.1)
    let a := alloc h ⟨nm, ps⟩
    ((normalizeAt a.1 a.2).1, some a.2)

/-- Translated from `unbias` in the source, with the object store explicit. -/
def unbiasM (h : List PmfObj) (r : ℕ) (nm : String) : List PmfObj × Option ℕ :=
  match h[r]? with
  | none => (h, none)
  | some o =>
    let ps := o.entries.map fun e => (e.1, e.2 / e.1)
    let a := alloc h ⟨nm, ps⟩
    ((normalizeAt a.1 a.2).1, some a.2)

/-! ## Helper lemmas -/

/-- Summing masses after dividing each by `t` divides the total by `t`. -/
theorem total_map_div (l : List (ℚ × ℚ)) (t : ℚ) :
    Pmf.total (l.map fun e => (e.1, e.2 / t)) = Pmf.total l / t := by
  induction l with
  | nil => simp [Pmf.total]
  | cons e l ih => simp [Pmf.total, add_div] at ih ⊢; simp [ih]

/-- Looking up a key that is not among a distribution's quantities yields the
zero value. -/
theorem lookup_eq_zero_of_not_mem {α : Type} [Zero α] (q : ℚ) (l : List (ℚ × α))
    (h : q ∉ keys l) : lookup q l = 0 := by
  induction l with
  | nil => rfl
  | cons e l ih =>
    simp [keys] at h
    simp [lookup, ih, h.1, h.2, keys]
    intro he
    exact absurd he.symm h.1

/-- With distinct keys, looking up a stored key returns its stored value. -/
theorem lookup_eq_of_mem {α : Type} [Zero α] {l : List (ℚ × α)} {q : ℚ} {c : α}
    (hnd : (keys l).Nodup) (hm : (q, c) ∈ l) : lookup q l = c := by
  induction l with
  | nil => exact absurd hm (List.not_mem_nil _)
  | cons e t ih =>
    simp only [keys, List.map_cons, List.nodup_cons] at hnd
    rcases List.mem_cons.mp hm with he | ht
    · rw [← he]; simp [lookup]
    · by_cases hq : e.1 = q
      · exact absurd (hq ▸ List.mem_map_of_mem Prod.fst ht) hnd.1
      · simpa [lookup, hq] using ih hnd.2 ht

/-- The Hist built by `from_seq` has total equal to the sequence length. -/
theorem hist_total_from_seq (s : List ℚ) :
    Hist.total (Hist.from_seq s) = s.length := by
  have hperm : List.Perm (List.insertionSort (· ≤ ·) s.dedup) s.dedup :=
    List.perm_insertionSort _ _
  have hsum := (hperm.map fun q => s.count q).sum_eq
  simp only [Hist.total, Hist.from_seq, List.map_map]
  calc ((List.insertionSort (· ≤ ·) s.dedup).map
          (Prod.snd ∘ fun q => (q, s.count q))).sum
      = ((List.insertionSort (· ≤ ·) s.dedup).map fun q => s.count q).sum := rfl
    _ = (s.dedup.map fun q => s.count q).sum := hsum
    _ = s.length := List.sum_map_count_dedup_eq_length s

/-! ## Claim theorems -/

/-- C5: for every finite non-empty sequence `S` of quantities, the Hist built
from `S` by `from_sequence` has total (sum of all counts) equal to the length
of `S`. -/
theorem hist_from_seq_total_spec (s : List ℚ) (hs : s ≠ []) :
    Hist.total (Hist.from_seq s) = s.length :=
  hist_total_from_seq s

/-- Witness for C5 at the sequence `[1, 2, 2, 3, 5]`. -/
theorem hist_from_seq_total_spec_witness :
    Hist.total (Hist.from_seq [1, 2, 2, 3, 5]) = [(1 : ℚ), 2, 2, 3, 5].length :=
  hist_from_seq_total_spec [1, 2, 2, 3, 5] (List.cons_ne_nil _ _)

/-- C10: for every series of length at least `n`, with `n ≥ 1`,
`split_series(series, n)` returns a pair (training, test) where test is
exactly the last `n` elements in their original order, training is exactly
all preceding elements in their original order, and training followed by
test is the original series. -/
theorem split_series_spec {α : Type} (series : List α) (n : ℕ)
    (h1 : 1 ≤ n) (h2 : n ≤ series.length) :
    (split_series series n).1 = series.take (series.length - n) ∧
    (split_series series n).2 = series.drop (series.length - n) ∧
    (split_series series n).1 ++ (split_series series n).2 = series ∧
    (split_series series n).2.length = n ∧
    (split_series series n).1.length = series.length - n := by
  have hn : n ≠ 0 := by omega
  simp only [split_series, if_neg hn]
  refine ⟨trivial, trivial, List.take_append_drop _ _, ?_, ?_⟩
  · rw [List.length_drop]; omega
  · rw [List.length_take]; omega

/-- Witness for C10 at the series `[1, 2, 3, 4, 5]` with `n = 2`. -/
theorem split_series_spec_witness :
    (split_series [(1 : ℚ), 2, 3, 4, 5] 2).1 =
      [(1 : ℚ), 2, 3, 4, 5].take ([(1 : ℚ), 2, 3, 4, 5].length - 2) ∧
    (split_series [(1 : ℚ), 2, 3, 4, 5] 2).2 =
      [(1 : ℚ), 2, 3, 4, 5].drop ([(1 : ℚ), 2, 3, 4, 5].length - 2) ∧
    (split_series [(1 : ℚ), 2, 3, 4, 5] 2).1 ++ (split_series [(1 : ℚ), 2, 3, 4, 5] 2).2 =
      [(1 : ℚ), 2, 3, 4, 5] ∧
    (split_series [(1 : ℚ), 2, 3, 4, 5] 2).2.length = 2 ∧
    (split_series [(1 : ℚ), 2, 3, 4, 5] 2).1.length = [(1 : ℚ), 2, 3, 4, 5].length - 2 :=
  split_series_spec [(1 : ℚ), 2, 3, 4, 5] 2 (by omega) (by simp)

/-- C3: when the masses sum to a nonzero value, `normalize` divides every mass
by that sum, returns the pre-normalization sum, and leaves the masses summing
to 1; when the sum is exactly zero the call is the defined signaled
condition, a no-op returning 0 — never a silent division. -/
theorem normalize_spec (p : List (ℚ × ℚ)) :
    (Pmf.total p ≠ 0 →
      (Pmf.normalize p).1 = Pmf.total p ∧
      (Pmf.normalize p).2 = (p.map fun e => (e.1, e.2 / Pmf.total p)) ∧
      Pmf.total (Pmf.normalize p).2 = 1) ∧
    (Pmf.total p = 0 → Pmf.normalize p = (0, p)) := by
  constructor
  · intro h
    simp only [Pmf.normalize, if_neg h]
    refine ⟨trivial, trivial, ?_⟩
    rw [total_map_div, div_self h]
  · intro h
    simp [Pmf.normalize, h]

/-- Witness for C3 at the un-normalized Pmf `[(2, 3)]`, whose masses sum
to 3. -/
theorem normalize_spec_witness :
    (Pmf.normalize [((2 : ℚ), (3 : ℚ))]).1 = Pmf.total [((2 : ℚ), (3 : ℚ))] ∧
    (Pmf.normalize [((2 : ℚ), (3 : ℚ))]).2 =
      ([((2 : ℚ), (3 : ℚ))].map fun e => (e.1, e.2 / Pmf.total [((2 : ℚ), (3 : ℚ))])) ∧
    Pmf.total (Pmf.normalize [((2 : ℚ), (3 : ℚ))]).2 = 1 :=
  (normalize_spec [((2 : ℚ), (3 : ℚ))]).1 (by norm_num [Pmf.total])

/-- C4: for every Hist, looking up a quantity returns its count — the stored
count when present, 0 when absent, never a not-found failure (the function is
total); likewise a Pmf lookup of an absent quantity returns mass 0. -/
theorem lookup_absent_spec :
    (∀ (h : List (ℚ × ℕ)) (q : ℚ), q ∉ keys h → lookup q h = 0) ∧
    (∀ (h : List (ℚ × ℕ)) (q : ℚ) (c : ℕ),
      (keys h).Nodup → (q, c) ∈ h → lookup q h = c) ∧
    (∀ (p : List (ℚ × ℚ)) (q : ℚ), q ∉ keys p → lookup q p = 0) :=
  ⟨fun h q hq => lookup_eq_zero_of_not_mem q h hq,
   fun _ _ _ hnd hm => lookup_eq_of_mem hnd hm,
   fun p q hq => lookup_eq_zero_of_not_mem q p hq⟩

/-- Witness for C4: lookups on the Hist `[(1, 3)]` and the Pmf `[(1, 1)]`. -/
theorem lookup_absent_spec_witness :
    lookup 2 [((1 : ℚ), (3 : ℕ))] = 0 ∧
    lookup 1 [((1 : ℚ), (3 : ℕ))] = 3 ∧
    lookup 2 [((1 : ℚ), (1 : ℚ))] = 0 :=
  ⟨lookup_absent_spec.1 [((1 : ℚ), (3 : ℕ))] 2 (by simp [keys]),
   lookup_absent_spec.2.1 [((1 : ℚ), (3 : ℕ))] 1 3 (by simp [keys]) (by simp),
   lookup_absent_spec.2.2 [((1 : ℚ), (1 : ℚ))] 2 (by simp [keys])⟩

/-- Looking up a key in a list that tags each element of `L` with a value
finds the tag exactly when the key occurs in `L`. -/
theorem lookup_map_self {α : Type} [Zero α] (L : List ℚ) (f : ℚ → α) (q : ℚ) :
    lookup q (L.map fun x => (x, f x)) = if q ∈ L then f q else 0 := by
  induction L with
  | nil => simp [lookup]
  | cons a t ih =>
    by_cases ha : a = q
    · subst ha; simp [lookup, ih]
    · simp [lookup, ha, ih, Ne.symm ha]

/-- Total of a Hist after dividing every count by `t`. -/
theorem total_ofHist_aux (H : List (ℚ × ℕ)) (t : ℚ) :
    Pmf.total (H.map fun e => (e.1, (e.2 : ℚ) / t)) = (Hist.total H : ℚ) / t := by
  induction H with
  | nil => simp [Pmf.total, Hist.total]
  | cons e l ih =>
    simp [Pmf.total, Hist.total, add_div] at ih ⊢
    simp [add_div, ih]

/-- C6: for every finite non-empty sequence `S`, the Pmf built from `S` by
`from_sequence` assigns each quantity the mass count/len(S), so its masses
sum to exactly 1. -/
theorem pmf_from_seq_spec (s : List ℚ) (hs : s ≠ []) :
    (∀ q : ℚ, lookup q (Pmf.from_seq s) = (s.count q : ℚ) / (s.length : ℚ)) ∧
    Pmf.total (Pmf.from_seq s) = 1 := by
  have hT : Hist.total (Hist.from_seq s) = s.length := hist_total_from_seq s
  constructor
  · intro q
    rw [Pmf.from_seq, Pmf.ofHist, hT, Hist.from_seq, List.map_map]
    have hco : ((fun e : ℚ × ℕ => (e.1, (e.2 : ℚ) / (s.length : ℚ))) ∘
        fun q => (q, s.count q)) =
        fun x => (x, (s.count x : ℚ) / (s.length : ℚ)) := rfl
    rw [hco, lookup_map_self]
    have hmem : q ∈ List.insertionSort (· ≤ ·) s.dedup ↔ q ∈ s := by
      rw [(List.perm_insertionSort _ _).mem_iff, List.mem_dedup]
    by_cases hq : q ∈ s
    · simp [hmem, hq]
    · simp [hmem, hq, List.count_eq_zero.mpr hq]
  · rw [Pmf.from_seq, Pmf.ofHist, total_ofHist_aux, hT]
    have hlen : (s.length : ℚ) ≠ 0 := by
      have := List.length_pos.mpr hs
      positivity
    exact div_self hlen

/-- Witness for C6 at the sequence `[1, 2, 2, 3, 5]` and quantity 2. -/
theorem pmf_from_seq_spec_witness :
    lookup 2 (Pmf.from_seq [1, 2, 2, 3, 5]) =
      (([(1 : ℚ), 2, 2, 3, 5].count 2 : ℚ) / (([(1 : ℚ), 2, 2, 3, 5].length : ℕ) : ℚ)) ∧
    Pmf.total (Pmf.from_seq [1, 2, 2, 3, 5]) = 1 :=
  ⟨(pmf_from_seq_spec [1, 2, 2, 3, 5] (List.cons_ne_nil _ _)).1 2,
   (pmf_from_seq_spec [1, 2, 2, 3, 5] (List.cons_ne_nil _ _)).2⟩

/-- A sublist of a distribution with ascending keys has ascending keys. -/
theorem sortedKeys_sublist {α : Type} {l l2 : List (ℚ × α)} (h : l2.Sublist l)
    (hs : sortedKeys l) : sortedKeys l2 :=
  List.Pairwise.sublist (h.map Prod.fst) hs

/-- C7 counterexample: on the two-row Hist `[(1, 5), (2, 7)]` (ascending
keys), `largest 2` keeps the rows in ascending, not descending, order of
quantity. -/
theorem largest_order_counterexample :
    sortedKeys [((1 : ℚ), (5 : ℕ)), ((2 : ℚ), (7 : ℕ))] ∧
    Hist.largest [((1 : ℚ), (5 : ℕ)), ((2 : ℚ), (7 : ℕ))] 2 =
      [((1 : ℚ), (5 : ℕ)), ((2 : ℚ), (7 : ℕ))] ∧
    Hist.largest [((1 : ℚ), (5 : ℕ)), ((2 : ℚ), (7 : ℕ))] 2 ≠
      [((2 : ℚ), (7 : ℕ)), ((1 : ℚ), (5 : ℕ))] := by
  refine ⟨?_, ?_, ?_⟩
  · simp [sortedKeys, keys]
  · norm_num [Hist.largest]
  · norm_num [Hist.largest]

/-- C7 amended: for a Hist with ascending keys and `1 ≤ n ≤` its number of
rows, `smallest n` returns the `n` quantities with smallest value together
with their counts, in ascending order of quantity, and `largest n` returns
the `n` quantities with largest value together with their counts, also in
ascending (not descending) order of quantity. -/
theorem smallest_largest_spec (h : List (ℚ × ℕ)) (n : ℕ) (hsk : sortedKeys h)
    (h1 : 1 ≤ n) (h2 : n ≤ h.length) :
    ((Hist.smallest h n).length = n ∧
     sortedKeys (Hist.smallest h n) ∧
     (∀ e ∈ Hist.smallest h n, e ∈ h) ∧
     (∀ x ∈ Hist.smallest h n, ∀ y ∈ h.drop n, x.1 < y.1)) ∧
    ((Hist.largest h n).length = n ∧
     sortedKeys (Hist.largest h n) ∧
     (∀ e ∈ Hist.largest h n, e ∈ h) ∧
     (∀ x ∈ Hist.largest h n, ∀ y ∈ h.take (h.length - n), y.1 < x.1)) := by
  have hn : n ≠ 0 := by omega
  have hsplit : ∀ m : ℕ, ∀ x ∈ h.take m, ∀ y ∈ h.drop m, x.1 < y.1 := by
    intro m x hx y hy
    have hpe : List.Pairwise (fun a b : ℚ × ℕ => a.1 < b.1) h :=
      (List.pairwise_map (f := (Prod.fst : ℚ × ℕ → ℚ))).mp hsk
    have hp : List.Pairwise (fun a b : ℚ × ℕ => a.1 < b.1) (h.take m ++ h.drop m) := by
      rwa [List.take_append_drop]
    exact (List.pairwise_append.mp hp).2.2 x hx y hy
  refine ⟨⟨?_, ?_, ?_, ?_⟩, ⟨?_, ?_, ?_, ?_⟩⟩
  · rw [Hist.smallest, List.length_take]; omega
  · exact sortedKeys_sublist (List.take_sublist n h) hsk
  · exact fun e he => (List.take_sublist n h).mem he
  · exact fun x hx y hy => hsplit n x hx y hy
  · rw [Hist.largest, if_neg hn, List.length_drop]; omega
  · rw [Hist.largest, if_neg hn]
    exact sortedKeys_sublist (List.drop_sublist _ h) hsk
  · rw [Hist.largest, if_neg hn]
    exact fun e he => (List.drop_sublist _ h).mem he
  · rw [Hist.largest, if_neg hn]
    exact fun x hx y hy => hsplit (h.length - n) y hy x hx

/-- Witness for C7 at the Hist `[(1, 5), (2, 7)]` with `n = 1`. -/
theorem smallest_largest_spec_witness :
    (Hist.smallest [((1 : ℚ), (5 : ℕ)), ((2 : ℚ), (7 : ℕ))] 1).length = 1 ∧
    (Hist.largest [((1 : ℚ), (5 : ℕ)), ((2 : ℚ), (7 : ℕ))] 1).length = 1 :=
  ⟨(smallest_largest_spec [((1 : ℚ), (5 : ℕ)), ((2 : ℚ), (7 : ℕ))] 1
      (by simp [sortedKeys, keys]) (by omega) (by simp)).1.1,
   (smallest_largest_spec [((1 : ℚ), (5 : ℕ)), ((2 : ℚ), (7 : ℕ))] 1
      (by simp [sortedKeys, keys]) (by omega) (by simp)).2.1⟩

/-- Allocating a fresh object and normalizing it in place leaves every
pre-existing slot of the object store untouched. -/
theorem alloc_normalize_frame (h : List PmfObj) (o : PmfObj) (s : ℕ)
    (hs : s < h.length) :
    ((normalizeAt (alloc h o).1 (alloc h o).2).1)[s]? = h[s]? := by
  have hget : (h ++ [o])[h.length]? = some o := List.getElem?_concat_length h o
  simp only [alloc, normalizeAt, hget]
  have hne : s ≠ h.length := by omega
  rw [List.getElem?_set_ne (Ne.symm hne)]
  exact List.getElem?_append_left hs

/-- C9: `bias` leaves the argument Pmf — indeed every pre-existing object in
the store — completely unchanged for every input, with the same quantities
and masses, and returns a reference to a freshly allocated Pmf rather than
mutating its argument; and `unbias`, when no quantity of the argument is
zero, does the same. -/
theorem bias_unbias_frame_spec (h : List PmfObj) (r : ℕ) (nm nm2 : String)
    (hr : r < h.length) :
    ((biasM h r nm).2 = some h.length ∧ h.length ≠ r ∧
     ∀ s : ℕ, s < h.length → ((biasM h r nm).1)[s]? = h[s]?) ∧
    ((∀ e ∈ (h.get ⟨r, hr⟩).entries, e.1 ≠ 0) →
     ((unbiasM h r nm2).2 = some h.length ∧ h.length ≠ r ∧
      ∀ s : ℕ, s < h.length → ((unbiasM h r nm2).1)[s]? = h[s]?)) := by
  have hsome : h[r]? = some (h.get ⟨r, hr⟩) := List.getElem?_eq_getElem hr
  constructor
  · refine ⟨?_, by omega, ?_⟩
    · simp only [biasM, hsome, alloc]
    · intro s hs
      simp only [biasM, hsome]
      exact alloc_normalize_frame h _ s hs
  · intro hz
    refine ⟨?_, by omega, ?_⟩
    · simp only [unbiasM, hsome, alloc]
    · intro s hs
      simp only [unbiasM, hsome]
      exact alloc_normalize_frame h _ s hs

/-- Witness for C9 on a one-object store holding the Pmf `[(1, 1)]`. -/
theorem bias_unbias_frame_spec_witness :
    (biasM [⟨("a"), [((1 : ℚ), (1 : ℚ))]⟩] 0 ("b")).2 =
      some [(⟨("a"), [((1 : ℚ), (1 : ℚ))]⟩ : PmfObj)].length ∧
    (unbiasM [⟨("a"), [((1 : ℚ), (1 : ℚ))]⟩] 0 ("u")).2 =
      some [(⟨("a"), [((1 : ℚ), (1 : ℚ))]⟩ : PmfObj)].length ∧
    ((biasM [⟨("a"), [((1 : ℚ), (1 : ℚ))]⟩] 0 ("b")).1)[0]? =
      [(⟨("a"), [((1 : ℚ), (1 : ℚ))]⟩ : PmfObj)][0]? :=
  ⟨(bias_unbias_frame_spec [⟨("a"), [((1 : ℚ), (1 : ℚ))]⟩] 0 ("b") ("u")
      (by simp)).1.1,
   ((bias_unbias_frame_spec [⟨("a"), [((1 : ℚ), (1 : ℚ))]⟩] 0 ("b") ("u")
      (by simp)).2 (by simp [List.get])).1,
   (bias_unbias_frame_spec [⟨("a"), [((1 : ℚ), (1 : ℚ))]⟩] 0 ("b") ("u")
      (by simp)).1.2.2 0 (by simp)⟩

/-- The total of the reweighted (pre-normalization) biased masses is the mean
of the original Pmf. -/
theorem total_map_mul_q (p : List (ℚ × ℚ)) :
    Pmf.total (p.map fun e => (e.1, e.2 * e.1)) = Pmf.mean p := by
  rw [Pmf.total, Pmf.mean, List.map_map]; rfl

/-- With nonnegative masses, strictly positive quantities and total mass 1,
the reweighted total Σ mass·quantity is nonzero. -/
theorem weighted_total_ne_zero (p : List (ℚ × ℚ))
    (hq : ∀ e ∈ p, 0 < e.1) (hp : ∀ e ∈ p, 0 ≤ e.2) (hn : Pmf.total p = 1) :
    Pmf.total (p.map fun e => (e.1, e.2 * e.1)) ≠ 0 := by
  rw [total_map_mul_q, Pmf.mean]
  intro h0
  have hterms : ∀ x ∈ p.map fun e => e.2 * e.1, 0 ≤ x := by
    intro x hx
    obtain ⟨e, he, rfl⟩ := List.mem_map.mp hx
    exact mul_nonneg (hp e he) (hq e he).le
  have hall : ∀ e ∈ p, e.2 * e.1 = 0 := fun e he =>
    List.all_zero_of_le_zero_le_of_sum_eq_zero hterms h0 (List.mem_map_of_mem _ he)
  have hzero : ∀ e ∈ p, e.2 = 0 := by
    intro e he
    rcases mul_eq_zero.mp (hall e he) with h | h
    · exact h
    · exact absurd h (hq e he).ne'
  have htz : Pmf.total p = 0 := by
    rw [Pmf.total]
    exact List.sum_eq_zero fun x hx => by
      obtain ⟨e, he, rfl⟩ := List.mem_map.mp hx
      exact hzero e he
  rw [hn] at htz
  exact one_ne_zero htz

/-- Round trip in exact arithmetic: on a normalized Pmf with nonnegative
masses and strictly positive quantities, `unbias (bias p)` rebuilds `p`
entry for entry. -/
theorem unbias_bias_eq (p : List (ℚ × ℚ))
    (hq : ∀ e ∈ p, 0 < e.1) (hp : ∀ e ∈ p, 0 ≤ e.2) (hn : Pmf.total p = 1) :
    unbias (bias p) = p := by
  have hT1 : Pmf.total (p.map fun e => (e.1, e.2 * e.1)) ≠ 0 :=
    weighted_total_ne_zero p hq hp hn
  set T : ℚ := Pmf.total (p.map fun e => (e.1, e.2 * e.1)) with hTdef
  have hbias : bias p = p.map fun e => (e.1, e.2 * e.1 / T) := by
    rw [bias, Pmf.normalize, if_neg hT1, List.map_map]
    rfl
  have hinner : (bias p).map (fun e => (e.1, e.2 / e.1)) =
      p.map fun e => (e.1, e.2 / T) := by
    rw [hbias, List.map_map]
    refine List.map_congr_left fun e he => ?_
    have h1 : e.1 ≠ 0 := (hq e he).ne'
    show (e.1, e.2 * e.1 / T / e.1) = (e.1, e.2 / T)
    rw [div_div, mul_comm T e.1, ← div_div, mul_div_assoc, div_self h1, mul_one]
  have htot2 : Pmf.total (p.map fun e => (e.1, e.2 / T)) = 1 / T := by
    rw [total_map_div, hn]
  have htot2ne : Pmf.total (p.map fun e => (e.1, e.2 / T)) ≠ 0 := by
    rw [htot2]
    exact one_div_ne_zero hT1
  rw [unbias, hinner, Pmf.normalize, if_neg htot2ne, htot2, List.map_map]
  have hco : ((fun e : ℚ × ℚ => (e.1, e.2 / (1 / T))) ∘ fun e : ℚ × ℚ => (e.1, e.2 / T)) =
      fun e : ℚ × ℚ => (e.1, e.2 / T / (1 / T)) := rfl
  rw [hco]
  have hfix : ∀ e ∈ p, (e.1, e.2 / T / (1 / T)) = e := by
    intro e he
    have hdd : e.2 / T / (1 / T) = e.2 := by
      field_simp
    rw [hdd]
  calc p.map (fun e => (e.1, e.2 / T / (1 / T))) = p.map id := List.map_congr_left hfix
    _ = p := List.map_id p

/-- C1 counterexample: the un-normalized Pmf `[(1, 2)]` has strictly positive
quantities, yet the round trip returns mass 1 at quantity 1 where the
original holds mass 2 — an exact disagreement, far beyond floating-point
tolerance. -/
theorem roundtrip_counterexample :
    (∀ e ∈ [((1 : ℚ), (2 : ℚ))], 0 < e.1) ∧
    lookup 1 (unbias (bias [((1 : ℚ), (2 : ℚ))])) = 1 ∧
    lookup 1 [((1 : ℚ), (2 : ℚ))] = 2 ∧
    lookup 1 (unbias (bias [((1 : ℚ), (2 : ℚ))])) ≠ lookup 1 [((1 : ℚ), (2 : ℚ))] := by
  refine ⟨by norm_num, ?_, ?_, ?_⟩
  · norm_num [unbias, bias, Pmf.normalize, Pmf.total, lookup]
  · norm_num [lookup]
  · norm_num [unbias, bias, Pmf.normalize, Pmf.total, lookup]

/-- C1 amended: for every normalized Pmf (nonnegative masses summing to 1)
whose quantities are all strictly positive, `unbias (bias p)` has at every
quantity `q` exactly the mass of `p` at `q`. -/
theorem unbias_bias_roundtrip (p : List (ℚ × ℚ))
    (hq : ∀ e ∈ p, 0 < e.1) (hp : ∀ e ∈ p, 0 ≤ e.2) (hn : Pmf.total p = 1) :
    ∀ q : ℚ, lookup q (unbias (bias p)) = lookup q p := by
  intro q
  rw [unbias_bias_eq p hq hp hn]

/-- Witness for C1 at the normalized one-point Pmf `[(2, 1)]`. -/
theorem unbias_bias_roundtrip_witness :
    lookup 2 (unbias (bias [((2 : ℚ), (1 : ℚ))])) = lookup 2 [((2 : ℚ), (1 : ℚ))] :=
  unbias_bias_roundtrip [((2 : ℚ), (1 : ℚ))] (by norm_num) (by norm_num)
    (by norm_num [Pmf.total]) 2

/-- Variance identity: Σ p (q − m)² = Σ p q² − 2 m Σ p q + m² Σ p. -/
theorem sum_sq_dev (p : List (ℚ × ℚ)) (m : ℚ) :
    (p.map fun e => e.2 * (e.1 - m) ^ 2).sum =
      (p.map fun e => e.2 * e.1 ^ 2).sum - 2 * m * (p.map fun e => e.2 * e.1).sum +
        m ^ 2 * (p.map fun e => e.2).sum := by
  induction p with
  | nil => simp
  | cons e t ih => simp [ih]; ring

/-- With nonnegative masses, the weighted sum of squared deviations is
nonnegative. -/
theorem variance_nonneg (p : List (ℚ × ℚ)) (hp : ∀ e ∈ p, 0 ≤ e.2) (m : ℚ) :
    0 ≤ (p.map fun e => e.2 * (e.1 - m) ^ 2).sum := by
  apply List.sum_nonneg
  intro x hx
  obtain ⟨e, he, rfl⟩ := List.mem_map.mp hx
  exact mul_nonneg (hp e he) (sq_nonneg _)

/-- The weighted sum of squared deviations vanishes exactly when every entry
with positive mass sits at `m`. -/
theorem variance_eq_zero_iff (p : List (ℚ × ℚ)) (hp : ∀ e ∈ p, 0 ≤ e.2) (m : ℚ) :
    (p.map fun e => e.2 * (e.1 - m) ^ 2).sum = 0 ↔
      ∀ e ∈ p, 0 < e.2 → e.1 = m := by
  constructor
  · intro h0 e he hpe
    have hterms : ∀ x ∈ p.map fun e => e.2 * (e.1 - m) ^ 2, 0 ≤ x := by
      intro x hx
      obtain ⟨e2, he2, rfl⟩ := List.mem_map.mp hx
      exact mul_nonneg (hp e2 he2) (sq_nonneg _)
    have hterm := List.all_zero_of_le_zero_le_of_sum_eq_zero hterms h0
      (List.mem_map_of_mem (fun e => e.2 * (e.1 - m) ^ 2) he)
    rcases mul_eq_zero.mp hterm with h | h
    · exact absurd h hpe.ne'
    · have hsq := pow_eq_zero_iff (n := 2) (by omega) |>.mp h
      linarith [sub_eq_zero.mp hsq]
  · intro hall
    apply List.sum_eq_zero
    intro x hx
    obtain ⟨e, he, rfl⟩ := List.mem_map.mp hx
    by_cases hpe : 0 < e.2
    · rw [hall e he hpe]; ring
    · have hz : e.2 = 0 := le_antisymm (not_lt.mp hpe) (hp e he)
      rw [hz, zero_mul]

/-- Dividing each summand by a constant divides the sum. -/
theorem sum_map_div_const {α : Type} (l : List α) (f : α → ℚ) (c : ℚ) :
    (l.map fun x => f x / c).sum = (l.map f).sum / c := by
  induction l with
  | nil => simp
  | cons x t ih => simp [add_div, ih]

/-- Mean of the biased Pmf: the second weighted moment over the first. -/
theorem mean_bias (p : List (ℚ × ℚ))
    (hT : Pmf.total (p.map fun e => (e.1, e.2 * e.1)) ≠ 0) :
    Pmf.mean (bias p) = (p.map fun e => e.2 * e.1 ^ 2).sum / Pmf.mean p := by
  rw [bias, Pmf.normalize, if_neg hT]
  simp only [total_map_mul_q] at hT ⊢
  rw [Pmf.mean, List.map_map, List.map_map]
  have hcomp : p.map (((fun e : ℚ × ℚ => e.2 * e.1) ∘
        fun e : ℚ × ℚ => (e.1, e.2 / Pmf.mean p)) ∘ fun e : ℚ × ℚ => (e.1, e.2 * e.1)) =
      p.map fun e : ℚ × ℚ => e.2 * e.1 ^ 2 / Pmf.mean p := by
    refine List.map_congr_left fun e he => ?_
    show e.2 * e.1 / Pmf.mean p * e.1 = e.2 * e.1 ^ 2 / Pmf.mean p
    ring
  rw [hcomp, sum_map_div_const]

/-- C2: for every normalized Pmf (nonnegative masses summing to 1) with
strictly positive numeric quantities, the mean of `bias p` is at least the
mean of `p`, with equality exactly when all quantities carrying positive
mass are equal to one another. -/
theorem bias_mean_ge_mean (p : List (ℚ × ℚ))
    (hq : ∀ e ∈ p, 0 < e.1) (hp : ∀ e ∈ p, 0 ≤ e.2) (hn : Pmf.total p = 1) :
    Pmf.mean p ≤ Pmf.mean (bias p) ∧
    (Pmf.mean (bias p) = Pmf.mean p ↔
      ∀ e ∈ p, ∀ e2 ∈ p, 0 < e.2 → 0 < e2.2 → e.1 = e2.1) := by
  have hT : Pmf.total (p.map fun e => (e.1, e.2 * e.1)) ≠ 0 :=
    weighted_total_ne_zero p hq hp hn
  have hμne : Pmf.mean p ≠ 0 := by rw [← total_map_mul_q]; exact hT
  have hμnonneg : 0 ≤ Pmf.mean p := by
    apply List.sum_nonneg
    intro x hx
    obtain ⟨e, he, rfl⟩ := List.mem_map.mp hx
    exact mul_nonneg (hp e he) (hq e he).le
  have hμpos : 0 < Pmf.mean p := lt_of_le_of_ne hμnonneg (Ne.symm hμne)
  have hMB : Pmf.mean (bias p) = (p.map fun e => e.2 * e.1 ^ 2).sum / Pmf.mean p :=
    mean_bias p hT
  have hsnd : (p.map fun e => e.2).sum = Pmf.total p := rfl
  have hVid : (p.map fun e => e.2 * (e.1 - Pmf.mean p) ^ 2).sum =
      (p.map fun e => e.2 * e.1 ^ 2).sum - Pmf.mean p ^ 2 := by
    rw [sum_sq_dev, hsnd, hn]
    have hμ : (p.map fun e => e.2 * e.1).sum = Pmf.mean p := rfl
    rw [hμ]; ring
  have hV := variance_nonneg p hp (Pmf.mean p)
  constructor
  · rw [hMB, le_div_iff₀ hμpos]
    nlinarith [hV, hVid]
  · rw [hMB, div_eq_iff hμne]
    have hiff1 : (p.map fun e => e.2 * e.1 ^ 2).sum = Pmf.mean p * Pmf.mean p ↔
        (p.map fun e => e.2 * (e.1 - Pmf.mean p) ^ 2).sum = 0 := by
      constructor
      · intro h; rw [hVid, h]; ring
      · intro h; nlinarith [hVid, h]
    rw [hiff1, variance_eq_zero_iff p hp]
    constructor
    · intro hall e he e2 he2 hpe hpe2
      rw [hall e he hpe, hall e2 he2 hpe2]
    · intro hpair e he hpe
      have hex : ∃ e0 ∈ p, e0.2 ≠ 0 := by
        by_contra hno
        push_neg at hno
        have htz : Pmf.total p = 0 := by
          rw [Pmf.total]
          exact List.sum_eq_zero fun x hx => by
            obtain ⟨e0, he0, rfl⟩ := List.mem_map.mp hx
            exact hno e0 he0
        rw [hn] at htz
        exact one_ne_zero htz
      obtain ⟨e0, he0, he0ne⟩ := hex
      have he0pos : 0 < e0.2 := lt_of_le_of_ne (hp e0 he0) (Ne.symm he0ne)
      have hmc : Pmf.mean p = e0.1 := by
        have hcongr : (p.map fun e2 => e2.2 * e2.1) = p.map fun e2 => e2.2 * e0.1 := by
          refine List.map_congr_left fun e2 he2 => ?_
          by_cases hpe2 : 0 < e2.2
          · rw [hpair e2 he2 e0 he0 hpe2 he0pos]
          · have hz : e2.2 = 0 := le_antisymm (not_lt.mp hpe2) (hp e2 he2)
            rw [hz, zero_mul, zero_mul]
        calc Pmf.mean p = (p.map fun e2 => e2.2 * e0.1).sum := by rw [Pmf.mean, hcongr]
          _ = (p.map fun e2 => e2.2).sum * e0.1 :=
              List.sum_map_mul_right p (fun e2 => e2.2) e0.1
          _ = e0.1 := by rw [hsnd, hn, one_mul]
      rw [hmc]
      exact hpair e he e0 he0 hpe he0pos

/-- Witness for C2 at the normalized one-point Pmf `[(2, 1)]`. -/
theorem bias_mean_ge_mean_witness :
    Pmf.mean [((2 : ℚ), (1 : ℚ))] ≤ Pmf.mean (bias [((2 : ℚ), (1 : ℚ))]) :=
  (bias_mean_ge_mean [((2 : ℚ), (1 : ℚ))] (by norm_num) (by norm_num)
    (by norm_num [Pmf.total])).1

/-- The best-so-far fold underlying `mode`: the result is the seed or a
later strictly better entry, and its value bounds every scanned value. -/
theorem foldl_mode_invariant {α : Type} [LinearOrder α] (t : List (ℚ × α)) (b : ℚ × α) :
    (t.foldl (fun b x => if b.2 < x.2 then x else b) b = b ∨
      (t.foldl (fun b x => if b.2 < x.2 then x else b) b ∈ t ∧
        b.2 < (t.foldl (fun b x => if b.2 < x.2 then x else b) b).2)) ∧
    ∀ x ∈ t, x.2 ≤ (t.foldl (fun b x => if b.2 < x.2 then x else b) b).2 := by
  induction t generalizing b with
  | nil => exact ⟨Or.inl rfl, by simp⟩
  | cons x t ih =>
    by_cases hbx : b.2 < x.2
    · have hstep : (x :: t).foldl (fun b x => if b.2 < x.2 then x else b) b =
          t.foldl (fun b x => if b.2 < x.2 then x else b) x := by
        simp [List.foldl_cons, if_pos hbx]
      rw [hstep]
      obtain ⟨ih1, ih2⟩ := ih x
      constructor
      · rcases ih1 with h | ⟨hmem, hlt⟩
        · exact Or.inr ⟨by rw [h]; exact List.mem_cons_self x t, by rw [h]; exact hbx⟩
        · exact Or.inr ⟨List.mem_cons_of_mem x hmem, lt_trans hbx hlt⟩
      · intro y hy
        rcases List.mem_cons.mp hy with rfl | hyt
        · rcases ih1 with h | ⟨_, hlt⟩
          · rw [h]
          · exact hlt.le
        · exact ih2 y hyt
    · have hstep : (x :: t).foldl (fun b x => if b.2 < x.2 then x else b) b =
          t.foldl (fun b x => if b.2 < x.2 then x else b) b := by
        simp [List.foldl_cons, if_neg hbx]
      rw [hstep]
      obtain ⟨ih1, ih2⟩ := ih b
      have hble : b.2 ≤ (t.foldl (fun b x => if b.2 < x.2 then x else b) b).2 := by
        rcases ih1 with h | ⟨_, hlt⟩
        · rw [h]
        · exact hlt.le
      constructor
      · rcases ih1 with h | ⟨hmem, hlt⟩
        · exact Or.inl h
        · exact Or.inr ⟨List.mem_cons_of_mem x hmem, hlt⟩
      · intro y hy
        rcases List.mem_cons.mp hy with rfl | hyt
        · exact le_trans (not_lt.mp hbx) hble
        · exact ih2 y hyt

/-- Tie-break: with ascending keys the fold lands on the smallest quantity
among the entries attaining the maximal value. -/
theorem foldl_mode_tie {α : Type} [LinearOrder α] (t : List (ℚ × α)) (b : ℚ × α)
    (hs : List.Pairwise (fun a c : ℚ × α => a.1 < c.1) (b :: t)) :
    ∀ x ∈ b :: t, x.2 = (t.foldl (fun b x => if b.2 < x.2 then x else b) b).2 →
      (t.foldl (fun b x => if b.2 < x.2 then x else b) b).1 ≤ x.1 := by
  induction t generalizing b with
  | nil =>
    intro x hx hv
    rcases List.mem_cons.mp hx with rfl | h
    · simp
    · exact absurd h (List.not_mem_nil x)
  | cons y t ih =>
    by_cases hby : b.2 < y.2
    · have hstep : (y :: t).foldl (fun b x => if b.2 < x.2 then x else b) b =
          t.foldl (fun b x => if b.2 < x.2 then x else b) y := by
        simp [List.foldl_cons, if_pos hby]
      rw [hstep]
      intro x hx hv
      rcases List.mem_cons.mp hx with rfl | hx2
      · exfalso
        obtain ⟨ih1, _⟩ := foldl_mode_invariant t y
        have hyle : y.2 ≤ (t.foldl (fun b x => if b.2 < x.2 then x else b) y).2 := by
          rcases ih1 with h | ⟨_, hlt⟩
          · rw [h]
          · exact hlt.le
        rw [← hv] at hyle
        exact absurd (lt_of_lt_of_le hby hyle) (lt_irrefl _)
      · exact ih y (hs.tail) x hx2 hv
    · have hstep : (y :: t).foldl (fun b x => if b.2 < x.2 then x else b) b =
          t.foldl (fun b x => if b.2 < x.2 then x else b) b := by
        simp [List.foldl_cons, if_neg hby]
      rw [hstep]
      intro x hx hv
      have hbt : List.Pairwise (fun a c : ℚ × α => a.1 < c.1) (b :: t) := by
        have hsub : (b :: t).Sublist (b :: y :: t) :=
          List.Sublist.cons₂ b (List.sublist_cons_self y t)
        exact hs.sublist hsub
      obtain hxb | hx2 := List.mem_cons.mp hx
      · subst hxb
        exact ih x hbt x (List.mem_cons_self x t) hv
      obtain hxy | hx3 := List.mem_cons.mp hx2
      · subst hxy
        obtain ⟨ih1, _⟩ := foldl_mode_invariant t b
        rcases ih1 with h | ⟨_, hlt⟩
        · rw [h]
          exact (List.pairwise_cons.mp hs).1 x (List.mem_cons_self x t) |>.le
        · exfalso
          rw [← hv] at hlt
          exact absurd (lt_of_le_of_lt (not_lt.mp hby) hlt) (lt_irrefl _)
      · exact ih b hbt x (List.mem_cons_of_mem b hx3) hv

/-- When nothing beats the seed, the fold returns the seed. -/
theorem foldl_mode_const {α : Type} [LinearOrder α] (t : List (ℚ × α)) (b : ℚ × α)
    (h : ∀ x ∈ t, ¬ b.2 < x.2) :
    t.foldl (fun b x => if b.2 < x.2 then x else b) b = b := by
  induction t with
  | nil => rfl
  | cons x t ih =>
    have hx : ¬ b.2 < x.2 := h x (List.mem_cons_self x t)
    simp only [List.foldl_cons, if_neg hx]
    exact ih fun y hy => h y (List.mem_cons_of_mem x hy)

/-- Dividing every value by a positive constant commutes with the fold. -/
theorem foldl_mode_map_div (T : ℚ) (hT : 0 < T) (t : List (ℚ × ℕ)) (b : ℚ × ℕ) :
    (t.map fun e => (e.1, (e.2 : ℚ) / T)).foldl (fun b x => if b.2 < x.2 then x else b)
        (b.1, (b.2 : ℚ) / T) =
      ((t.foldl (fun b x => if b.2 < x.2 then x else b) b).1,
        ((t.foldl (fun b x => if b.2 < x.2 then x else b) b).2 : ℚ) / T) := by
  induction t generalizing b with
  | nil => rfl
  | cons x t ih =>
    have hcond : ((b.2 : ℚ) / T < (x.2 : ℚ) / T) ↔ b.2 < x.2 := by
      rw [div_lt_div_iff_of_pos_right hT, Nat.cast_lt]
    by_cases hbx : b.2 < x.2
    · simp only [List.map_cons, List.foldl_cons, if_pos hbx, if_pos (hcond.mpr hbx)]
      exact ih x
    · simp only [List.map_cons, List.foldl_cons, if_neg hbx,
        if_neg (fun hc => hbx (hcond.mp hc))]
      exact ih b

/-- Generic mode property: on a non-empty distribution with ascending keys,
`mode` returns the quantity of an entry whose value is maximal, and the
smallest quantity among the tied maximal entries. -/
theorem mode_is_max_smallest {α : Type} [LinearOrder α] (l : List (ℚ × α))
    (hl : l ≠ []) (hs : sortedKeys l) :
    ∃ q, mode l = some q ∧ ∃ e ∈ l, e.1 = q ∧ (∀ x ∈ l, x.2 ≤ e.2) ∧
      ∀ x ∈ l, x.2 = e.2 → q ≤ x.1 := by
  cases l with
  | nil => exact absurd rfl hl
  | cons b t =>
    have hpair : List.Pairwise (fun a c : ℚ × α => a.1 < c.1) (b :: t) :=
      (List.pairwise_map).mp hs
    obtain ⟨ih1, ih2⟩ := foldl_mode_invariant t b
    refine ⟨(t.foldl (fun b x => if b.2 < x.2 then x else b) b).1, by simp [mode],
      t.foldl (fun b x => if b.2 < x.2 then x else b) b, ?_, rfl, ?_, ?_⟩
    · rcases ih1 with h | ⟨hmem, _⟩
      · rw [h]; exact List.mem_cons_self b t
      · exact List.mem_cons_of_mem b hmem
    · intro x hx
      rcases List.mem_cons.mp hx with rfl | hxt
      · rcases ih1 with h | ⟨_, hlt⟩
        · rw [h]
        · exact hlt.le
      · exact ih2 x hxt
    · intro x hx hv
      exact foldl_mode_tie t b hpair x hx hv

/-- Deriving a Pmf from a Hist preserves the mode, tie-break included. -/
theorem mode_ofHist (h : List (ℚ × ℕ)) : mode (Pmf.ofHist h) = mode h := by
  cases h with
  | nil => rfl
  | cons b t =>
    by_cases hT : Hist.total (b :: t) = 0
    · have hzero : ∀ e ∈ b :: t, e.2 = 0 := by
        intro e he
        have hall := (List.sum_eq_zero_iff).mp hT
        exact hall e.2 (List.mem_map_of_mem Prod.snd he)
      have h1 : t.foldl (fun b x => if b.2 < x.2 then x else b) b = b := by
        apply foldl_mode_const
        intro x hx
        rw [hzero x (List.mem_cons_of_mem b hx), hzero b (List.mem_cons_self b t)]
        exact lt_irrefl 0
      have h2 : (t.map fun e => (e.1, (e.2 : ℚ) / (Hist.total (b :: t) : ℚ))).foldl
          (fun b x => if b.2 < x.2 then x else b)
          (b.1, (b.2 : ℚ) / (Hist.total (b :: t) : ℚ)) =
          (b.1, (b.2 : ℚ) / (Hist.total (b :: t) : ℚ)) := by
        apply foldl_mode_const
        intro x hx
        obtain ⟨e, he, rfl⟩ := List.mem_map.mp hx
        rw [hzero e (List.mem_cons_of_mem b he), hzero b (List.mem_cons_self b t)]
        exact lt_irrefl _
      rw [mode, Pmf.ofHist, List.map_cons, mode, h2, h1]
    · have hTpos : (0 : ℚ) < (Hist.total (b :: t) : ℚ) := by
        have hTn : 0 < Hist.total (b :: t) := Nat.pos_of_ne_zero hT
        exact_mod_cast hTn
      rw [mode, Pmf.ofHist, List.map_cons, mode,
        foldl_mode_map_div (Hist.total (b :: t) : ℚ) hTpos t b]

/-- C8: for every non-empty Hist (and every non-empty Pmf) with ascending
keys, `mode` returns the quantity with the maximum count (respectively the
maximum mass), breaking ties by the smallest quantity among the tied ones,
and the mode of the Pmf derived from a Hist agrees with the Hist's mode. -/
theorem mode_spec :
    (∀ h : List (ℚ × ℕ), h ≠ [] → sortedKeys h →
      ∃ q, mode h = some q ∧ ∃ e ∈ h, e.1 = q ∧ (∀ x ∈ h, x.2 ≤ e.2) ∧
        ∀ x ∈ h, x.2 = e.2 → q ≤ x.1) ∧
    (∀ p : List (ℚ × ℚ), p ≠ [] → sortedKeys p →
      ∃ q, mode p = some q ∧ ∃ e ∈ p, e.1 = q ∧ (∀ x ∈ p, x.2 ≤ e.2) ∧
        ∀ x ∈ p, x.2 = e.2 → q ≤ x.1) ∧
    (∀ h : List (ℚ × ℕ), mode (Pmf.ofHist h) = mode h) :=
  ⟨fun h hne hs => mode_is_max_smallest h hne hs,
   fun p hne hs => mode_is_max_smallest p hne hs,
   mode_ofHist⟩

/-- Witness for C8 at the Hist `[(1, 2), (2, 3)]`. -/
theorem mode_spec_witness :
    (mode [((1 : ℚ), (2 : ℕ)), ((2 : ℚ), (3 : ℕ))]).isSome = true ∧
    mode (Pmf.ofHist [((1 : ℚ), (2 : ℕ)), ((2 : ℚ), (3 : ℕ))]) =
      mode [((1 : ℚ), (2 : ℕ)), ((2 : ℚ), (3 : ℕ))] := by
  constructor
  · obtain ⟨q, hq, _⟩ := mode_spec.1 [((1 : ℚ), (2 : ℕ)), ((2 : ℚ), (3 : ℕ))]
      (List.cons_ne_nil _ _) (by simp [sortedKeys, keys])
    rw [hq]
    rfl
  · exact mode_spec.2.2 _

end ThinkStats
